import Mathlib

/-!
# MILCODEC receiver: verification of the spec's claims against the source

Shallow embedding of the decoder / crypto core of the `milcodec-receiver`
repository (JavaScript).  Byte buffers (`Uint8Array`) are modelled as
`List Nat`, audio sample buffers (`Float32Array`) as `List ℚ`, bit streams
as `List Nat` (`{0,1}` values) or `List Int` (`{-1,0,1}` for the FSK
variant, `-1` being the indeterminate marker).  External library calls
(`nacl.secretbox.open`, `JSON.parse`) are parameters of the embedded
functions, since their code is not part of this repository.
-/

/-- JS `(b << 1) | x`: shift-left-then-or, the accumulator step used by the
source when packing MSB-first bit strings into integers. -/
def jsShiftOr (b x : Nat) : Nat := (b <<< 1) ||| x

/-! ## Crypto layer (`src/crypto.js`)

The file holds two variants of the `MilcodecCrypto` object: the first
("WebCrypto variant", `decrypt` at lines 66-112) tries `nacl.secretbox`
and falls back to a Web-Crypto ChaCha20 path; the second ("NaCl variant",
`decrypt` at lines 249-287) uses a 24-byte-nonce secretbox layout only.
-/

/-- Result record shape shared by `errorResult` and `unpackPacket` in the
WebCrypto variant: `{content, priority, status, msgType, filename, verified}`. -/
structure MsgRecord where
  content : String
  priority : String
  status : String
  msgType : String
  filename : Option String
  verified : Bool
  deriving Repr, DecidableEq

/-- The `errorResult(message)` helper of `src/crypto.js` (lines 199-208). -/
def errorResult (message : String) : MsgRecord :=
  { content := message
    priority := "ROUTINE"
    status := "ERROR"
    msgType := "TEXT"
    filename := none
    verified := false }

/-- The parsed form of the JSON body: the recognized keys
`{p, m, f, d}` of the packet JSON, each optional (absent key = `none`). -/
structure PacketJson where
  p : Option String
  m : Option String
  f : Option String
  d : Option String
  deriving Repr, DecidableEq

/-- JS string-truthiness fallback `s || dflt`: an absent or empty string
falls back to the default. -/
def strOr (s : Option String) (dflt : String) : String :=
  match s with
  | none => dflt
  | some v => if v = "" then dflt else v

/-- Table lookup `MILCODEC.MSG_TYPES[typeByte] || 'TEXT'` (src/decoder.js lines 30-36,
src/crypto.js line 154): the type-byte table with TEXT as the fallback for
every unknown byte. -/
def msgTypeOf (typeByte : Nat) : String :=
  if typeByte = 0x01 then "TEXT"
  else if typeByte = 0x02 then "LOCATION"
  else if typeByte = 0x03 then "FILE"
  else if typeByte = 0x04 then "IMAGE"
  else if typeByte = 0x05 then "ACK"
  else "TEXT"

/-- A `JSON.parse` oracle: turns the raw JSON bytes into a `PacketJson`,
or `none` when parsing throws.  `JSON.parse` is an external runtime
function, so the embedding takes it as a parameter. -/
def JsonParse : Type := List Nat → Option PacketJson

/-- Function `unpackPacket(packet, verifyKeyHex)` of the WebCrypto variant
(src/crypto.js lines 145-194): guard `length < 65`, split
`type ‖ signature[64] ‖ json`, map the type byte, parse the JSON, and
build the result record; `verified` stays `false` on every path (the
Ed25519 check is an unimplemented TODO in the source). -/
def unpackPacket (parse : JsonParse) (packet : List Nat)
    (verifyKeyHex : Option String) : MsgRecord :=
  if packet.length < 65 then errorResult "Invalid packet"
  else
    match parse (packet.drop 65) with
    | none => errorResult "JSON parse failed"
    | some data =>
      if msgTypeOf (packet.getD 0 0) = "FILE" ∨ msgTypeOf (packet.getD 0 0) = "IMAGE" then
        { content := "File: " ++ strOr data.f "unknown"
          priority := strOr data.p "ROUTINE"
          status := "OK"
          msgType := msgTypeOf (packet.getD 0 0)
          filename := some (strOr data.f "unknown")
          verified := false }
      else
        { content := strOr data.m ""
          priority := strOr data.p "ROUTINE"
          status := "OK"
          msgType := msgTypeOf (packet.getD 0 0)
          filename := none
          verified := false }

/-- Function `fecDecode(data)` (src/crypto.js lines 50-58): return `null` when the
blob is not longer than `RS_SYMBOLS = 32`, else strip the trailing 32
parity bytes. -/
def fecDecode (data : List Nat) : Option (List Nat) :=
  if data.length ≤ 32 then none
  else some (data.take (data.length - 32))

/-- The blob `decrypt` actually feeds to the cipher: `fecDecode(blob)`
when it returned non-null, else the blob unchanged
(src/crypto.js lines 72-77). -/
def decodedBlobOf (blob : List Nat) : List Nat :=
  match fecDecode blob with
  | some d => d
  | none => blob

/-- The buffer `new Uint8Array(24)` after `nonce24.set(nonce)`
(src/crypto.js lines 91-92): the consumed nonce bytes followed by zeros
up to 24 bytes. -/
def pad24 (nonce : List Nat) : List Nat :=
  nonce ++ List.replicate (24 - nonce.length) 0

/-- A `nacl.secretbox.open(ciphertext, nonce, key)` oracle: the decrypted
plaintext, or `none` when tag verification fails (the library returns
`null`).  TweetNaCl is an external library, so the embedding takes it as
a parameter. -/
def SecretboxOpen : Type := List Nat → List Nat → List Nat → Option (List Nat)

/-- The two ciphers `decrypt` can attempt, in the order the attempts are
recorded. -/
inductive Cipher where
  | secretbox
  | chacha
  deriving Repr, DecidableEq

/-- Resolved value of the async `decryptWithWebCrypto(nonce, ciphertext)`
(src/crypto.js lines 118-136): the key import (32-byte raw key, AES-GCM)
succeeds, and the function then returns the unsupported-cipher error
without ever decrypting. -/
def decryptWithWebCrypto : MsgRecord :=
  errorResult "ChaCha20 not supported in this browser"

/-- Function `decrypt(blob, verifyKeyHex)` of the WebCrypto variant
(src/crypto.js lines 66-112), instrumented with the list of ciphers it
attempted, in order: guard `blob.length < 28`, optional FEC strip, split
`nonce(12) ‖ ciphertext`, try `nacl.secretbox.open` on the zero-padded
24-byte nonce, and only on its `null` fall back to
`decryptWithWebCrypto`; on success unpack the plaintext. -/
def decryptT (sb : SecretboxOpen) (parse : JsonParse) (key : List Nat)
    (blob : List Nat) (verifyKeyHex : Option String) :
    MsgRecord × List Cipher :=
  if blob.length < 28 then (errorResult "Corrupt Data", [])
  else
    match sb ((decodedBlobOf blob).drop 12) (pad24 ((decodedBlobOf blob).take 12)) key with
    | none => (decryptWithWebCrypto, [Cipher.secretbox, Cipher.chacha])
    | some plaintext => (unpackPacket parse plaintext verifyKeyHex, [Cipher.secretbox])

/-- Function `decrypt(blob, verifyKeyHex)` of the WebCrypto variant, result only. -/
def decrypt (sb : SecretboxOpen) (parse : JsonParse) (key : List Nat)
    (blob : List Nat) (verifyKeyHex : Option String) : MsgRecord :=
  (decryptT sb parse key blob verifyKeyHex).1

/-- Result record of the NaCl variant's `decrypt`
(src/crypto.js lines 249-287): its error returns carry only
`{content, status, priority}`; `msgType` and `verified` are present only
on the success path, so they are optional here (`none` = field absent). -/
structure RecordB where
  content : String
  status : String
  priority : String
  msgType : Option String
  verified : Option Bool
  deriving Repr, DecidableEq

/-- Function `decrypt(encryptedBytes)` of the NaCl variant (src/crypto.js lines
249-287): guard `length < 24 + 16` ("Too short"), split
`nonce(24) ‖ ciphertext`, open the secretbox ("Decryption failed" on
`null`), then parse `type(1) ‖ signature(64) ‖ json`; a JSON parse throw
lands in the catch-all.  `msgType` is `'TEXT'` for type byte 1, else
`'OTHER'`. -/
def decryptB (sb : SecretboxOpen) (parse : JsonParse) (key : List Nat)
    (encryptedBytes : List Nat) : RecordB :=
  if encryptedBytes.length < 24 + 16 then
    { content := "Too short", status := "ERROR", priority := "ROUTINE"
      msgType := none, verified := none }
  else
    match sb (encryptedBytes.drop 24) (encryptedBytes.take 24) key with
    | none =>
      { content := "Decryption failed", status := "ERROR", priority := "ROUTINE"
        msgType := none, verified := none }
    | some plaintext =>
      match parse (plaintext.drop 65) with
      | none =>
        { content := "Error: JSON parse failed", status := "ERROR"
          priority := "ROUTINE", msgType := none, verified := none }
      | some data =>
        { content := strOr data.m ""
          status := "OK"
          priority := strOr data.p "ROUTINE"
          msgType := some (if plaintext.getD 0 0 = 1 then "TEXT" else "OTHER")
          verified := some false }

/-! ## 2-FSK "Screecher" payload extraction (`src/decoder.js`, second module)

`extractFromAudio` there ends with a pure post-synchronization stage on
`dataStream` (an array over `{-1, 0, 1}`, `-1` the indeterminate marker):
read a 16-bit MSB-first length, validate it, majority-vote the three
payload copies, and pack bytes (lines 331-376). -/

/-- The length-field bit decision `dataStream[i] === 1 ? 1 : 0`
(src/decoder.js line 335): `-1` (indeterminate) counts as 0. -/
def fskBit (x : Int) : Nat := if x = 1 then 1 else 0

/-- The 16-bit MSB-first length read `len = (len << 1) | bit`
(src/decoder.js lines 333-337). -/
def fskReadLen (dataStream : List Int) : Nat :=
  (List.range 16).foldl (fun len i => jsShiftOr len (fskBit (dataStream.getD i 0))) 0

/-- The indeterminate clean-up `if (b < 0) b = 0` before the majority sum
(src/decoder.js lines 357-360). -/
def clampNonneg (x : Int) : Int := if x < 0 then 0 else x

/-- Steps 2-4 of the Screecher `extractFromAudio` (src/decoder.js lines
331-376), on the downsampled post-sync `dataStream`: length guard, the
`0 < L ≤ 1024` validation, the truncation guard, triple-redundancy
majority vote (`-1` cleaned to 0, `sum >= 2` wins), and MSB-first byte
packing. -/
def fskExtract (dataStream : List Int) : Option (List Nat) :=
  if dataStream.length < 16 then none
  else if fskReadLen dataStream ≤ 0 ∨ 1024 < fskReadLen dataStream then none
  else if dataStream.length < 16 + fskReadLen dataStream * 8 * 3 then none
  else
    let len := fskReadLen dataStream
    let dataStart := 16
    let bitLen := len * 8
    let payload :=
      (List.range bitLen).map (fun i =>
        let b1 := clampNonneg (dataStream.getD (dataStart + i) 0)
        let b2 := clampNonneg (dataStream.getD (dataStart + bitLen + i) 0)
        let b3 := clampNonneg (dataStream.getD (dataStart + bitLen * 2 + i) 0)
        if 2 ≤ b1 + b2 + b3 then (1 : Nat) else 0)
    some ((List.range len).map (fun i =>
      (List.range 8).foldl (fun b j => jsShiftOr b (payload.getD (i * 8 + j) 0)) 0))

/-! ## Heavy-duty DSSS decoder (`src/unnamed/part_001`)

Same framing contract on a plain `{0,1}` bit stream: a 32-bit sync word
searched with up to 2 bit errors over a 5000-offset cap, then the
16-bit length, triple redundancy and byte packing. -/

/-- The 32-bit sync word `SYNC_WORD` (src/decoder.js line 16,
src/unnamed/part_001 line 17). -/
def SYNC_WORD : List Nat :=
  [0, 0, 0, 1, 1, 0, 1, 0, 1, 1, 0, 0, 1, 1, 1, 1,
   1, 1, 1, 1, 1, 1, 0, 0, 0, 0, 0, 1, 1, 1, 0, 1]

/-- Count `matchErrors` at offset `i` in the heavy-duty sync search
(src/unnamed/part_001 lines 90-92): the number of positions where
`bits[i+j] !== sw[j]`, i.e. the Hamming distance to the sync word. -/
def hdErrAt (bits : List Nat) (i : Nat) : Nat :=
  ((List.range 32).filter (fun j => bits.getD (i + j) 2 ≠ SYNC_WORD.getD j 2)).length

/-- Count `invErrors` at offset `i` (src/unnamed/part_001 lines 90-93): the
Hamming distance to the bitwise-negated sync word `1 - sw[j]`. -/
def hdInvErrAt (bits : List Nat) (i : Nat) : Nat :=
  ((List.range 32).filter (fun j => bits.getD (i + j) 2 ≠ 1 - SYNC_WORD.getD j 2)).length

/-- The heavy-duty sync loop body (src/unnamed/part_001 lines 88-98),
written as structural recursion on the number of remaining candidate
offsets: accept the first offset with at most 2 errors against the sync
word (not inverted) or against its negation (inverted). -/
def hdFindSyncLoop (bits : List Nat) : Nat → Nat → Option (Nat × Bool)
  | _, 0 => none
  | i, rem + 1 =>
    if hdErrAt bits i ≤ 2 then some (i, false)
    else if hdInvErrAt bits i ≤ 2 then some (i, true)
    else hdFindSyncLoop bits (i + 1) rem

/-- The heavy-duty sync search (src/unnamed/part_001 lines 84-98):
offsets `0 ≤ i < min(bits.length - 32, 5000)`, tolerance 2. -/
def hdFindSync (bits : List Nat) : Option (Nat × Bool) :=
  hdFindSyncLoop bits 0 (min (bits.length - 32) 5000)

/-- The heavy-duty 16-bit MSB-first length read `len = (len << 1) | rawData[i]`
(src/unnamed/part_001 lines 114-115). -/
def hdReadLen (rawData : List Nat) : Nat :=
  (List.range 16).foldl (fun len i => jsShiftOr len (rawData.getD i 0)) 0

/-- Steps 5-7 of the heavy-duty `extractFromAudio` (src/unnamed/part_001
lines 112-149) on the (possibly de-inverted) post-sync `rawData`: length
guard, `0 < L ≤ 1024` validation, truncation guard (the source states it
on `bits.length < syncIndex + 32 + totalBitsNeeded`, which equals
`rawData.length < totalBitsNeeded` since `rawData = bits[syncIndex+32:]`),
majority vote, byte packing. -/
def hdPayload (rawData : List Nat) : Option (List Nat) :=
  if rawData.length < 16 then none
  else if hdReadLen rawData ≤ 0 ∨ 1024 < hdReadLen rawData then none
  else if rawData.length < 16 + hdReadLen rawData * 8 * 3 then none
  else
    let len := hdReadLen rawData
    let dataStart := 16
    let bitLen := len * 8
    let payload :=
      (List.range bitLen).map (fun i =>
        let b1 := rawData.getD (dataStart + i) 0
        let b2 := rawData.getD (dataStart + bitLen + i) 0
        let b3 := rawData.getD (dataStart + bitLen * 2 + i) 0
        if 2 ≤ b1 + b2 + b3 then (1 : Nat) else 0)
    some ((List.range len).map (fun i =>
      (List.range 8).foldl (fun b j => jsShiftOr b (payload.getD (i * 8 + j) 0)) 0))

/-! ## DSSS/BPSK covert decoder (`src/decoder.js`, first module)

Audio samples are modelled as rationals.  The carrier JS computes as
`cos(2*pi*freq*i/FS)` is a fixed transcendental-valued sequence; the
embedding takes the per-frequency carrier buffers as parameters (one
list per scanned frequency), which leaves every algebraic step of the
source intact. -/

/-- Constant `BARKER_31` (src/decoder.js line 12): the 31-chip spreading sequence. -/
def BARKER_31 : List ℚ :=
  [1, 1, 1, 1, 1, -1, -1, 1, 1, -1, 1, -1, -1, 1, 1,
   1, 1, 1, -1, -1, 1, 1, -1, 1, -1, 1, -1, -1, -1, -1, -1]

/-- Function `getSpreadSeqTemplate()` (src/decoder.js lines 41-49): each chip
replicated `SAMPLES_PER_CHIP = 4` times. -/
def spreadSeqTemplate : List ℚ :=
  (BARKER_31.map (fun chip => List.replicate 4 chip)).flatten

/-- Constant `samplesPerBitCovert = 31 * SAMPLES_PER_CHIP` (src/decoder.js line 88). -/
def samplesPerBitCovert : Nat := 31 * 4

/-- Whether `bits[i + j] === syncWord[j]` holds for all `j` — the `match`
flag of `findSyncWord` (src/decoder.js lines 62-66). -/
def syncMatchAt (bits syncWord : List Nat) (i : Nat) : Bool :=
  (List.range syncWord.length).all (fun j => bits.getD (i + j) 2 == syncWord.getD j 2)

/-- Whether `bits[i + j] === (1 - syncWord[j])` holds for all `j` — the
`invertMatch` flag of `findSyncWord` (src/decoder.js lines 62-67). -/
def syncInvAt (bits syncWord : List Nat) (i : Nat) : Bool :=
  (List.range syncWord.length).all (fun j => bits.getD (i + j) 2 == 1 - syncWord.getD j 2)

/-- The `findSyncWord` scan loop (src/decoder.js lines 61-73), structural
recursion on the remaining candidate count: the first offset with an
exact match wins (`inverted = false` preferred). -/
def findSyncLoop (bits syncWord : List Nat) : Nat → Nat → Option (Nat × Bool)
  | _, 0 => none
  | i, rem + 1 =>
    if syncMatchAt bits syncWord i then some (i, false)
    else if syncInvAt bits syncWord i then some (i, true)
    else findSyncLoop bits syncWord (i + 1) rem

/-- Function `findSyncWord(bits, syncWord)` (src/decoder.js lines 57-76):
offsets `0 ≤ i < min(bits.length - n, 2000)`, exact matching against the
sync word and its bitwise negation. -/
def findSyncWord (bits syncWord : List Nat) : Option (Nat × Bool) :=
  findSyncLoop bits syncWord 0 (min (bits.length - syncWord.length) 2000)

/-- The despreading correlation `score` for symbol slot `i`
(src/decoder.js lines 119-124): the dot product of one
`samplesPerBitCovert`-long stretch of the baseband with the spread
template. -/
def covertScore (baseband : List ℚ) (i : Nat) : ℚ :=
  (((baseband.drop (i * samplesPerBitCovert)).take samplesPerBitCovert).zip
    spreadSeqTemplate).foldl (fun acc p => acc + p.1 * p.2) 0

/-- The COVERT-mode bit extraction (src/decoder.js lines 116-127):
`floor(len / samplesPerBit)` symbol slots, bit 1 exactly when the
correlation score is positive. -/
def covertBits (baseband : List ℚ) : List Nat :=
  (List.range (baseband.length / samplesPerBitCovert)).map
    (fun i => if 0 < covertScore baseband i then 1 else 0)

/-- Function `bitsToBytes(bits)` (src/decoder.js lines 165-175): MSB-first packing
of each group of eight bits, `byte = (byte << 1) | bits[i*8+j]`. -/
def bitsToBytes (bits : List Nat) : List Nat :=
  (List.range (bits.length / 8)).map (fun i =>
    (List.range 8).foldl (fun byte j => jsShiftOr byte (bits.getD (i * 8 + j) 0)) 0)

/-- The post-demodulation tail of `extractFromAudio` for one carrier
(src/decoder.js lines 129-153): find the sync word, slice off everything
up to and including it, bitwise-negate when the inverted path matched,
trim to a byte boundary, pack into bytes; `none` when no sync was found
(the `for` loop then tries the next frequency). -/
def decodeBitsCovert (rawBits : List Nat) : Option (List Nat) :=
  match findSyncWord rawBits SYNC_WORD with
  | none => none
  | some r =>
    let aligned := rawBits.drop (r.1 + SYNC_WORD.length)
    let aligned2 := if r.2 then aligned.map (fun b => 1 - b) else aligned
    let rem := aligned2.length % 8
    let aligned3 := aligned2.take (aligned2.length - rem)
    some (bitsToBytes aligned3)

/-- Demodulation `baseband[i] = audioData[i] * carrier[i]` (src/decoder.js lines 97-101). -/
def basebandOf (audioData carrier : List ℚ) : List ℚ :=
  List.zipWith (· * ·) audioData carrier

/-- The integrated sum for BURST symbol slot `i` (src/decoder.js lines
107-113): `sps = 8` samples each, summed. -/
def burstScore (baseband : List ℚ) (i : Nat) : ℚ :=
  ((baseband.drop (i * 8)).take 8).foldl (fun acc x => acc + x) 0

/-- The BURST-mode bit extraction (src/decoder.js lines 106-115):
bit 1 exactly when the integrated baseband of the 8-sample slot is
positive. -/
def burstBits (baseband : List ℚ) : List Nat :=
  (List.range (baseband.length / 8)).map (fun i => if 0 < burstScore baseband i then 1 else 0)

/-- Function `extractFromAudio(audioData, mode, ...)` (src/decoder.js lines
85-158) with the scanned carriers supplied as explicit buffers (the JS
computes `carrier[i] = cos(2*pi*freq*i/FS)` per scanned frequency):
demodulate against each carrier in order, despread per the mode, and
return the first successful sync-aligned byte extraction; `none` when
every carrier fails. -/
def extractFromAudio (audioData : List ℚ) (mode : String) :
    List (List ℚ) → Option (List Nat)
  | [] => none
  | carrier :: rest =>
    match decodeBitsCovert (if mode = "BURST"
        then burstBits (basebandOf audioData carrier)
        else covertBits (basebandOf audioData carrier)) with
    | some bytes => some bytes
    | none => extractFromAudio audioData mode rest

/-- Sample-wise negation of an audio window. -/
def negQ (xs : List ℚ) : List ℚ := xs.map (fun x => -x)

/-! ## Specification-side notions

Definitions following the claims' vocabulary (Hamming distance, bitwise
negation of a pattern, 2-of-3 majority), to be compared with the
source-derived functions above. -/

/-- Hamming distance between `bits[i..]` and a pattern: the number of
positions of the pattern where the two disagree. -/
def hammingAt (bits pattern : List Nat) (i : Nat) : Nat :=
  ((List.range pattern.length).filter
    (fun j => bits.getD (i + j) 2 ≠ pattern.getD j 2)).length

/-- Bitwise negation of a `{0,1}` word. -/
def notWord (w : List Nat) : List Nat := w.map (fun b => 1 - b)

/-- The 2-of-3 majority on booleans. -/
def majority3 (a b c : Bool) : Bool := (a && b) || (a && c) || (b && c)

def bslotFor (b : Nat) : List ℚ :=
  if b = 1 then List.replicate 8 1 else List.replicate 8 (-1)

/-- A BURST-mode audio window whose first symbol slot is silent (all
zeros, so its integrated sum is exactly 0) and whose remaining 32 slots
carry the last 31 sync bits and one trailing 0 bit as full-scale
constants. -/
def audioCE : List ℚ :=
  List.replicate 8 0 ++ ((SYNC_WORD.drop 1).map bslotFor).flatten ++ bslotFor 0

def carrierCE : List ℚ := List.replicate (33 * 8) 1

/-- Constant `DEFAULT_KEY` (src/crypto.js lines 8-13): the ASCII bytes of
`"01234567890123456789012345678901"`. -/
def DEFAULT_KEY : List Nat :=
  [0x30, 0x31, 0x32, 0x33, 0x34, 0x35, 0x36, 0x37,
   0x38, 0x39, 0x30, 0x31, 0x32, 0x33, 0x34, 0x35,
   0x36, 0x37, 0x38, 0x39, 0x30, 0x31, 0x32, 0x33,
   0x34, 0x35, 0x36, 0x37, 0x38, 0x39, 0x30, 0x31]

/-- A secretbox oracle on which every tag verification fails. -/
def sbFail : SecretboxOpen := fun _ _ _ => none

/-- A secretbox oracle that opens every box to a fixed 65-byte plaintext. -/
def sbFixed : SecretboxOpen := fun _ _ _ => some (List.replicate 65 0)

/-- A JSON oracle on which every parse throws. -/
def parseFail : JsonParse := fun _ => none

/-- A JSON oracle parsing every body to `{"m":"HELLO"}`. -/
def parseHello : JsonParse := fun _ => some ⟨none, some "HELLO", none, none⟩

theorem jsShiftOr_eq (b x : Nat) (hx : x ≤ 1) : jsShiftOr b x = 2 * b + x := by
  unfold jsShiftOr
  apply Nat.eq_of_testBit_eq
  intro i
  rw [Nat.testBit_lor, Nat.shiftLeft_eq]
  rcases i with _ | i
  · interval_cases x <;>
      simp [Nat.testBit_zero, Nat.mul_comm, Nat.mul_add_mod] <;> omega
  · have h2 : b * 2 ^ 1 = 2 * b := by ring
    rw [h2]
    interval_cases x
    · simp [Nat.testBit_succ, Nat.mul_add_div]
    · have hL : (2 * b).testBit (i + 1) = b.testBit i := by
        rw [Nat.testBit_succ]
        congr 1
        omega
      have hR : (2 * b + 1).testBit (i + 1) = b.testBit i := by
        rw [Nat.testBit_succ]
        congr 1
        omega
      simp [hL, hR, Nat.testBit_succ]

theorem hdErrAt_eq_hamming (bits : List Nat) (i : Nat) :
    hdErrAt bits i = hammingAt bits SYNC_WORD i := rfl

theorem hdInvErrAt_eq_hamming (bits : List Nat) (i : Nat) :
    hdInvErrAt bits i = hammingAt bits (notWord SYNC_WORD) i := by
  unfold hdInvErrAt hammingAt
  have hlen : (notWord SYNC_WORD).length = 32 := rfl
  rw [hlen]
  congr 1

theorem syncMatchAt_iff_hamming (bits sw : List Nat) (i : Nat) :
    syncMatchAt bits sw i = true ↔ hammingAt bits sw i = 0 := by
  unfold syncMatchAt hammingAt
  rw [List.all_eq_true, List.length_eq_zero, List.filter_eq_nil]
  constructor
  · intro h j hj
    have := h j hj
    simpa using this
  · intro h j hj
    simpa using h j hj

theorem syncInvAt_iff_hamming (bits sw : List Nat) (i : Nat) :
    syncInvAt bits sw i = true ↔ hammingAt bits (notWord sw) i = 0 := by
  unfold syncInvAt hammingAt
  have hlen : (notWord sw).length = sw.length := List.length_map _ _
  rw [hlen, List.all_eq_true, List.length_eq_zero, List.filter_eq_nil]
  constructor
  · intro h j hj
    have hj' : j < sw.length := List.mem_range.mp hj
    have := h j hj
    simp only [decide_eq_true_eq] at this ⊢
    have hnw : (notWord sw).getD j 2 = 1 - sw.getD j 2 := by
      unfold notWord
      rw [List.getD_eq_getElem _ _ (by simpa using hj'), List.getElem_map,
        List.getD_eq_getElem _ _ hj']
    rw [hnw]
    simp only [beq_iff_eq] at this
    omega
  · intro h j hj
    have hj' : j < sw.length := List.mem_range.mp hj
    have := h j hj
    simp only [decide_eq_true_eq] at this
    have hnw : (notWord sw).getD j 2 = 1 - sw.getD j 2 := by
      unfold notWord
      rw [List.getD_eq_getElem _ _ (by simpa using hj'), List.getElem_map,
        List.getD_eq_getElem _ _ hj']
    rw [hnw] at this
    simp only [beq_iff_eq]
    omega

theorem findSyncLoop_none_iff (bits sw : List Nat) :
    ∀ rem i, (findSyncLoop bits sw i rem = none ↔
      ∀ k < rem, ¬(syncMatchAt bits sw (i + k) = true ∨ syncInvAt bits sw (i + k) = true)) := by
  intro rem
  induction rem with
  | zero => intro i; simp [findSyncLoop]
  | succ n ih =>
    intro i
    unfold findSyncLoop
    cases hm : syncMatchAt bits sw i with
    | true =>
      simp only [if_true]
      constructor
      · intro h; cases h
      · intro h
        have h0 := h 0 (Nat.succ_pos n)
        rw [Nat.add_zero] at h0
        exact absurd (Or.inl hm) h0
    | false =>
      cases hv : syncInvAt bits sw i with
      | true =>
        simp only [Bool.false_eq_true, if_false, if_true]
        constructor
        · intro h; cases h
        · intro h
          have h0 := h 0 (Nat.succ_pos n)
          rw [Nat.add_zero] at h0
          exact absurd (Or.inr hv) h0
      | false =>
        simp only [Bool.false_eq_true, if_false]
        rw [ih (i + 1)]
        constructor
        · intro h k hk
          rcases k with _ | k
          · simp [hm, hv]
          · have := h k (by omega)
            rw [show i + (k + 1) = i + 1 + k by omega]
            exact this
        · intro h k hk
          have := h (k + 1) (by omega)
          rw [show i + (k + 1) = i + 1 + k by omega] at this
          exact this

theorem findSyncLoop_some (bits sw : List Nat) :
    ∀ rem i j inv, findSyncLoop bits sw i rem = some (j, inv) →
      i ≤ j ∧ j < i + rem ∧
      (syncMatchAt bits sw j = true ∨ syncInvAt bits sw j = true) ∧
      (∀ k, i ≤ k → k < j → ¬(syncMatchAt bits sw k = true ∨ syncInvAt bits sw k = true)) ∧
      (inv = true ↔ (syncMatchAt bits sw j = false ∧ syncInvAt bits sw j = true)) := by
  intro rem
  induction rem with
  | zero => intro i j inv h; simp [findSyncLoop] at h
  | succ n ih =>
    intro i j inv h
    unfold findSyncLoop at h
    cases hm : syncMatchAt bits sw i with
    | true =>
      rw [hm] at h
      simp only [if_true, Option.some.injEq, Prod.mk.injEq] at h
      obtain ⟨rfl, rfl⟩ := h
      refine ⟨le_refl _, by omega, Or.inl hm, fun k hk1 hk2 => by omega, ?_⟩
      simp [hm]
    | false =>
      rw [hm] at h
      simp only [Bool.false_eq_true, if_false] at h
      cases hv : syncInvAt bits sw i with
      | true =>
        rw [hv] at h
        simp only [if_true, Option.some.injEq, Prod.mk.injEq] at h
        obtain ⟨rfl, rfl⟩ := h
        exact ⟨le_refl _, by omega, Or.inr hv, fun k hk1 hk2 => by omega, by simp [hm, hv]⟩
      | false =>
        rw [hv] at h
        simp only [Bool.false_eq_true, if_false] at h
        obtain ⟨h1, h2, h3, h4, h5⟩ := ih (i + 1) j inv h
        refine ⟨by omega, by omega, h3, ?_, h5⟩
        intro k hk1 hk2
        rcases Nat.eq_or_lt_of_le hk1 with rfl | hlt
        · simp [hm, hv]
        · exact h4 k (by omega) hk2

theorem hdFindSyncLoop_none_iff (bits : List Nat) :
    ∀ rem i, (hdFindSyncLoop bits i rem = none ↔
      ∀ k < rem, ¬(hdErrAt bits (i + k) ≤ 2 ∨ hdInvErrAt bits (i + k) ≤ 2)) := by
  intro rem
  induction rem with
  | zero => intro i; simp [hdFindSyncLoop]
  | succ n ih =>
    intro i
    unfold hdFindSyncLoop
    by_cases hm : hdErrAt bits i ≤ 2
    · simp only [hm, if_true]
      constructor
      · intro h; cases h
      · intro h
        have h0 := h 0 (Nat.succ_pos n)
        rw [Nat.add_zero] at h0
        exact absurd (Or.inl hm) h0
    · simp only [hm, if_false]
      by_cases hv : hdInvErrAt bits i ≤ 2
      · simp only [hv, if_true]
        constructor
        · intro h; cases h
        · intro h
          have h0 := h 0 (Nat.succ_pos n)
          rw [Nat.add_zero] at h0
          exact absurd (Or.inr hv) h0
      · simp only [hv, if_false]
        rw [ih (i + 1)]
        constructor
        · intro h k hk
          rcases k with _ | k
          · rw [Nat.add_zero]
            simp [hm, hv]
          · have := h k (by omega)
            rw [show i + (k + 1) = i + 1 + k by omega]
            exact this
        · intro h k hk
          have := h (k + 1) (by omega)
          rw [show i + (k + 1) = i + 1 + k by omega] at this
          exact this

theorem hdFindSyncLoop_some (bits : List Nat) :
    ∀ rem i j inv, hdFindSyncLoop bits i rem = some (j, inv) →
      i ≤ j ∧ j < i + rem ∧
      (hdErrAt bits j ≤ 2 ∨ hdInvErrAt bits j ≤ 2) ∧
      (∀ k, i ≤ k → k < j → ¬(hdErrAt bits k ≤ 2 ∨ hdInvErrAt bits k ≤ 2)) ∧
      (inv = true ↔ (¬hdErrAt bits j ≤ 2 ∧ hdInvErrAt bits j ≤ 2)) := by
  intro rem
  induction rem with
  | zero => intro i j inv h; simp [hdFindSyncLoop] at h
  | succ n ih =>
    intro i j inv h
    unfold hdFindSyncLoop at h
    by_cases hm : hdErrAt bits i ≤ 2
    · simp only [hm, if_true, Option.some.injEq, Prod.mk.injEq] at h
      obtain ⟨rfl, rfl⟩ := h
      refine ⟨le_refl _, by omega, Or.inl hm, fun k hk1 hk2 => by omega, ?_⟩
      simp [hm]
    · simp only [hm, if_false] at h
      by_cases hv : hdInvErrAt bits i ≤ 2
      · simp only [hv, if_true, Option.some.injEq, Prod.mk.injEq] at h
        obtain ⟨rfl, rfl⟩ := h
        exact ⟨le_refl _, by omega, Or.inr hv, fun k hk1 hk2 => by omega, by simp [hm, hv]⟩
      · simp only [hv, if_false] at h
        obtain ⟨h1, h2, h3, h4, h5⟩ := ih (i + 1) j inv h
        refine ⟨by omega, by omega, h3, ?_, h5⟩
        intro k hk1 hk2
        rcases Nat.eq_or_lt_of_le hk1 with rfl | hlt
        · simp [hm, hv]
        · exact h4 k (by omega) hk2

/-- C8: for every raw bit stream, the synchronizer returns the smallest
offset `i` in `[0, min(len − |sync|, cap))` whose Hamming distance to the
sync word or to its bitwise negation is at most ε (ε = 0 with cap 2000
for the DSSS/BPSK `findSyncWord`, ε = 2 with cap 5000 for the heavy-duty
variant), with `inverted = true` exactly when only the negated pattern
matched at that offset; if no such offset exists it reports no sync. -/
theorem claim_C8_sync_search :
    (∀ bits sw : List Nat,
      (∀ i inv, findSyncWord bits sw = some (i, inv) →
        i < min (bits.length - sw.length) 2000 ∧
        (hammingAt bits sw i = 0 ∨ hammingAt bits (notWord sw) i = 0) ∧
        (∀ j < i, ¬(hammingAt bits sw j = 0 ∨ hammingAt bits (notWord sw) j = 0)) ∧
        (inv = true ↔ (hammingAt bits (notWord sw) i = 0 ∧ ¬hammingAt bits sw i = 0))) ∧
      (findSyncWord bits sw = none ↔
        ∀ i < min (bits.length - sw.length) 2000,
          ¬(hammingAt bits sw i = 0 ∨ hammingAt bits (notWord sw) i = 0))) ∧
    (∀ bits : List Nat,
      (∀ i inv, hdFindSync bits = some (i, inv) →
        i < min (bits.length - 32) 5000 ∧
        (hammingAt bits SYNC_WORD i ≤ 2 ∨ hammingAt bits (notWord SYNC_WORD) i ≤ 2) ∧
        (∀ j < i, ¬(hammingAt bits SYNC_WORD j ≤ 2 ∨
          hammingAt bits (notWord SYNC_WORD) j ≤ 2)) ∧
        (inv = true ↔ (hammingAt bits (notWord SYNC_WORD) i ≤ 2 ∧
          ¬hammingAt bits SYNC_WORD i ≤ 2))) ∧
      (hdFindSync bits = none ↔
        ∀ i < min (bits.length - 32) 5000,
          ¬(hammingAt bits SYNC_WORD i ≤ 2 ∨ hammingAt bits (notWord SYNC_WORD) i ≤ 2))) := by
  constructor
  · intro bits sw
    constructor
    · intro i inv h
      obtain ⟨h1, h2, h3, h4, h5⟩ := findSyncLoop_some bits sw _ 0 i inv h
      rw [Nat.zero_add] at h2
      refine ⟨h2, ?_, ?_, ?_⟩
      · rcases h3 with h3 | h3
        · exact Or.inl ((syncMatchAt_iff_hamming bits sw i).mp h3)
        · exact Or.inr ((syncInvAt_iff_hamming bits sw i).mp h3)
      · intro j hj hc
        refine h4 j (Nat.zero_le j) hj ?_
        rcases hc with hc | hc
        · exact Or.inl ((syncMatchAt_iff_hamming bits sw j).mpr hc)
        · exact Or.inr ((syncInvAt_iff_hamming bits sw j).mpr hc)
      · rw [h5]
        constructor
        · rintro ⟨hma, hin⟩
          refine ⟨(syncInvAt_iff_hamming bits sw i).mp hin, ?_⟩
          intro hham
          rw [(syncMatchAt_iff_hamming bits sw i).mpr hham] at hma
          cases hma
        · rintro ⟨hin, hham⟩
          refine ⟨?_, (syncInvAt_iff_hamming bits sw i).mpr hin⟩
          cases hmv : syncMatchAt bits sw i with
          | false => rfl
          | true => exact absurd ((syncMatchAt_iff_hamming bits sw i).mp hmv) hham
    · rw [show findSyncWord bits sw =
        findSyncLoop bits sw 0 (min (bits.length - sw.length) 2000) from rfl,
        findSyncLoop_none_iff bits sw]
      constructor
      · intro h i hi hc
        refine h i hi ?_
        rw [Nat.zero_add]
        rcases hc with hc | hc
        · exact Or.inl ((syncMatchAt_iff_hamming bits sw i).mpr hc)
        · exact Or.inr ((syncInvAt_iff_hamming bits sw i).mpr hc)
      · intro h i hi hc
        refine h i hi ?_
        rw [Nat.zero_add] at hc
        rcases hc with hc | hc
        · exact Or.inl ((syncMatchAt_iff_hamming bits sw i).mp hc)
        · exact Or.inr ((syncInvAt_iff_hamming bits sw i).mp hc)
  · intro bits
    constructor
    · intro i inv h
      obtain ⟨h1, h2, h3, h4, h5⟩ := hdFindSyncLoop_some bits _ 0 i inv h
      rw [Nat.zero_add] at h2
      rw [hdErrAt_eq_hamming, hdInvErrAt_eq_hamming] at h3 h5
      refine ⟨h2, h3, ?_, by rw [h5]; tauto⟩
      intro j hj hc
      refine h4 j (Nat.zero_le j) hj ?_
      rw [hdErrAt_eq_hamming, hdInvErrAt_eq_hamming]
      exact hc
    · rw [show hdFindSync bits =
        hdFindSyncLoop bits 0 (min (bits.length - 32) 5000) from rfl,
        hdFindSyncLoop_none_iff bits]
      constructor
      · intro h i hi hc
        refine h i hi ?_
        rw [Nat.zero_add, hdErrAt_eq_hamming, hdInvErrAt_eq_hamming]
        exact hc
      · intro h i hi hc
        rw [Nat.zero_add, hdErrAt_eq_hamming, hdInvErrAt_eq_hamming] at hc
        exact h i hi hc

/-- Witness for C8: on the concrete 33-bit stream `SYNC_WORD ++ [0]` the
DSSS synchronizer accepts offset 0 non-inverted, and the theorem yields
its least-offset characterization there. -/
theorem claim_C8_sync_search_witness :
    (0 : Nat) < min ((SYNC_WORD ++ [0]).length - SYNC_WORD.length) 2000 ∧
    (hammingAt (SYNC_WORD ++ [0]) SYNC_WORD 0 = 0 ∨
      hammingAt (SYNC_WORD ++ [0]) (notWord SYNC_WORD) 0 = 0) := by
  have h := (claim_C8_sync_search.1 (SYNC_WORD ++ [0]) SYNC_WORD).1 0 false (by decide)
  exact ⟨h.1, h.2.1⟩

theorem foldl_jsShiftOr_eq_sum (f : Nat → Nat) (n : Nat) (hf : ∀ j < n, f j ≤ 1) :
    (List.range n).foldl (fun b j => jsShiftOr b (f j)) 0 =
      ∑ j in Finset.range n, 2 ^ (n - 1 - j) * f j := by
  induction n with
  | zero => simp
  | succ m ih =>
    rw [List.range_succ, List.foldl_append, List.foldl_cons, List.foldl_nil,
      ih (fun j hj => hf j (by omega)), jsShiftOr_eq _ _ (hf m (by omega)),
      Finset.sum_range_succ, Finset.mul_sum]
    have he : ∀ j ∈ Finset.range m, 2 * (2 ^ (m - 1 - j) * f j) = 2 ^ (m + 1 - 1 - j) * f j := by
      intro j hj
      have hjm : j < m := Finset.mem_range.mp hj
      rw [← Nat.mul_assoc, ← pow_succ']
      congr 2
      omega
    rw [Finset.sum_congr rfl he]
    have : 2 ^ (m + 1 - 1 - m) * f m = f m := by
      simp
    omega

/-- C2: both length-prefixed payload extractors read a 16-bit MSB-first
length `L` (value `∑ 2^(15-i)·bit_i`) and yield no message whenever
`L = 0` or `L > 1024`, regardless of the subsequent bits; a message is
produced only when `0 < L ≤ 1024`. -/
theorem claim_C2_length_bound :
    (∀ ds : List Int,
      fskReadLen ds = ∑ i in Finset.range 16, 2 ^ (15 - i) * fskBit (ds.getD i 0) ∧
      ((fskReadLen ds = 0 ∨ 1024 < fskReadLen ds) → fskExtract ds = none) ∧
      (∀ bs, fskExtract ds = some bs → 0 < fskReadLen ds ∧ fskReadLen ds ≤ 1024)) ∧
    (∀ rawData : List Nat,
      ((∀ x ∈ rawData, x ≤ 1) →
        hdReadLen rawData = ∑ i in Finset.range 16, 2 ^ (15 - i) * rawData.getD i 0) ∧
      ((hdReadLen rawData = 0 ∨ 1024 < hdReadLen rawData) → hdPayload rawData = none) ∧
      (∀ bs, hdPayload rawData = some bs →
        0 < hdReadLen rawData ∧ hdReadLen rawData ≤ 1024)) := by
  constructor
  · intro ds
    refine ⟨?_, ?_, ?_⟩
    · have hb : ∀ j, fskBit (ds.getD j 0) ≤ 1 := by
        intro j
        unfold fskBit
        split <;> omega
      have := foldl_jsShiftOr_eq_sum (fun i => fskBit (ds.getD i 0)) 16
        (fun j _ => hb j)
      simpa [fskReadLen] using this
    · intro h
      unfold fskExtract
      by_cases h16 : ds.length < 16
      · rw [if_pos h16]
      · rw [if_neg h16, if_pos (by omega : fskReadLen ds ≤ 0 ∨ 1024 < fskReadLen ds)]
    · intro bs hbs
      unfold fskExtract at hbs
      by_cases h16 : ds.length < 16
      · rw [if_pos h16] at hbs
        cases hbs
      · rw [if_neg h16] at hbs
        by_cases hc : fskReadLen ds ≤ 0 ∨ 1024 < fskReadLen ds
        · rw [if_pos hc] at hbs
          cases hbs
        · omega
  · intro rawData
    refine ⟨?_, ?_, ?_⟩
    · intro hle
      have hgd : ∀ j, rawData.getD j 0 ≤ 1 := by
        intro j
        by_cases hj : j < rawData.length
        · rw [List.getD_eq_getElem _ _ hj]
          exact hle _ (List.getElem_mem hj)
        · rw [List.getD_eq_default _ _ (by omega)]
          omega
      have := foldl_jsShiftOr_eq_sum (fun i => rawData.getD i 0) 16 (fun j _ => hgd j)
      simpa [hdReadLen] using this
    · intro h
      unfold hdPayload
      by_cases h16 : rawData.length < 16
      · rw [if_pos h16]
      · rw [if_neg h16,
          if_pos (by omega : hdReadLen rawData ≤ 0 ∨ 1024 < hdReadLen rawData)]
    · intro bs hbs
      unfold hdPayload at hbs
      by_cases h16 : rawData.length < 16
      · rw [if_pos h16] at hbs
        cases hbs
      · rw [if_neg h16] at hbs
        by_cases hc : hdReadLen rawData ≤ 0 ∨ 1024 < hdReadLen rawData
        · rw [if_pos hc] at hbs
          cases hbs
        · omega

/-- Witness for C2: the all-zero 16-bit stream declares `L = 0` and the
Screecher extractor yields no message on it. -/
theorem claim_C2_length_bound_witness :
    fskReadLen (List.replicate 16 (0 : Int)) = 0 ∧
    fskExtract (List.replicate 16 (0 : Int)) = none := by
  refine ⟨by decide, ?_⟩
  exact (claim_C2_length_bound.1 (List.replicate 16 (0 : Int))).2.1 (Or.inl (by decide))

theorem fsk_majority_step (x1 x2 x3 : Int)
    (h1 : x1 = -1 ∨ x1 = 0 ∨ x1 = 1) (h2 : x2 = -1 ∨ x2 = 0 ∨ x2 = 1)
    (h3 : x3 = -1 ∨ x3 = 0 ∨ x3 = 1) :
    (if 2 ≤ clampNonneg x1 + clampNonneg x2 + clampNonneg x3 then (1 : Nat) else 0) =
      (if majority3 (x1 == 1) (x2 == 1) (x3 == 1) then 1 else 0) := by
  rcases h1 with rfl | rfl | rfl <;> rcases h2 with rfl | rfl | rfl <;>
    rcases h3 with rfl | rfl | rfl <;> decide

theorem hd_majority_step (x1 x2 x3 : Nat) (h1 : x1 ≤ 1) (h2 : x2 ≤ 1) (h3 : x3 ≤ 1) :
    (if 2 ≤ x1 + x2 + x3 then (1 : Nat) else 0) =
      (if majority3 (x1 == 1) (x2 == 1) (x3 == 1) then 1 else 0) := by
  interval_cases x1 <;> interval_cases x2 <;> interval_cases x3 <;> decide

theorem int_getD_vals (ds : List Int) (hv : ∀ x ∈ ds, x = -1 ∨ x = 0 ∨ x = 1)
    (n : Nat) : ds.getD n 0 = -1 ∨ ds.getD n 0 = 0 ∨ ds.getD n 0 = 1 := by
  by_cases hn : n < ds.length
  · rw [List.getD_eq_getElem _ _ hn]
    exact hv _ (List.getElem_mem hn)
  · rw [List.getD_eq_default _ _ (by omega)]
    exact Or.inr (Or.inl rfl)

theorem nat_getD_le_one (raw : List Nat) (hle : ∀ x ∈ raw, x ≤ 1) (n : Nat) :
    raw.getD n 0 ≤ 1 := by
  by_cases hn : n < raw.length
  · rw [List.getD_eq_getElem _ _ hn]
    exact hle _ (List.getElem_mem hn)
  · rw [List.getD_eq_default _ _ (by omega)]
    omega

/-- C3: on a synchronized stream with valid length `L` and at least
`16 + 24·L` subsequent bits, both extractors output `L` bytes; output
payload bit `i ∈ [0, 8L)` is the 2-of-3 majority of the redundant copies
at stream positions `16+i`, `16+8L+i`, `16+16L+i` (an indeterminate
marker counts as 0), and each group of eight consecutive payload bits is
packed MSB-first into one output byte. -/
theorem claim_C3_majority_vote :
    (∀ ds : List Int, (∀ x ∈ ds, x = -1 ∨ x = 0 ∨ x = 1) →
      0 < fskReadLen ds → fskReadLen ds ≤ 1024 →
      16 + fskReadLen ds * 8 * 3 ≤ ds.length →
      ∃ bytes, fskExtract ds = some bytes ∧ bytes.length = fskReadLen ds ∧
        ∀ i < fskReadLen ds, bytes.getD i 0 =
          ∑ j in Finset.range 8, 2 ^ (7 - j) *
            (if majority3 (ds.getD (16 + (8 * i + j)) 0 == 1)
                (ds.getD (16 + 8 * fskReadLen ds + (8 * i + j)) 0 == 1)
                (ds.getD (16 + 16 * fskReadLen ds + (8 * i + j)) 0 == 1)
              then 1 else 0)) ∧
    (∀ rawData : List Nat, (∀ x ∈ rawData, x ≤ 1) →
      0 < hdReadLen rawData → hdReadLen rawData ≤ 1024 →
      16 + hdReadLen rawData * 8 * 3 ≤ rawData.length →
      ∃ bytes, hdPayload rawData = some bytes ∧ bytes.length = hdReadLen rawData ∧
        ∀ i < hdReadLen rawData, bytes.getD i 0 =
          ∑ j in Finset.range 8, 2 ^ (7 - j) *
            (if majority3 (rawData.getD (16 + (8 * i + j)) 0 == 1)
                (rawData.getD (16 + 8 * hdReadLen rawData + (8 * i + j)) 0 == 1)
                (rawData.getD (16 + 16 * hdReadLen rawData + (8 * i + j)) 0 == 1)
              then 1 else 0)) := by
  constructor
  · intro ds hv h0 h1 h2
    have hns : ¬ds.length < 16 := by omega
    have hng : ¬(fskReadLen ds ≤ 0 ∨ 1024 < fskReadLen ds) := by omega
    have hnt : ¬(ds.length < 16 + fskReadLen ds * 8 * 3) := by omega
    have hfsk : fskExtract ds = some ((List.range (fskReadLen ds)).map (fun i =>
        (List.range 8).foldl (fun b j => jsShiftOr b
          (((List.range (fskReadLen ds * 8)).map (fun k =>
            if 2 ≤ clampNonneg (ds.getD (16 + k) 0) +
                clampNonneg (ds.getD (16 + fskReadLen ds * 8 + k) 0) +
                clampNonneg (ds.getD (16 + fskReadLen ds * 8 * 2 + k) 0)
              then (1 : Nat) else 0)).getD (i * 8 + j) 0)) 0)) := by
      unfold fskExtract
      rw [if_neg hns, if_neg hng, if_neg hnt]
    refine ⟨_, hfsk, by simp, ?_⟩
    intro i hi
    have hiL : i < ((List.range (fskReadLen ds)).map (fun i =>
        (List.range 8).foldl (fun b j => jsShiftOr b
          (((List.range (fskReadLen ds * 8)).map (fun k =>
            if 2 ≤ clampNonneg (ds.getD (16 + k) 0) +
                clampNonneg (ds.getD (16 + fskReadLen ds * 8 + k) 0) +
                clampNonneg (ds.getD (16 + fskReadLen ds * 8 * 2 + k) 0)
              then (1 : Nat) else 0)).getD (i * 8 + j) 0)) 0)).length := by
      simpa using hi
    rw [List.getD_eq_getElem _ _ hiL, List.getElem_map, List.getElem_range]
    have hbound : ∀ j < 8, ((List.range (fskReadLen ds * 8)).map (fun k =>
        if 2 ≤ clampNonneg (ds.getD (16 + k) 0) +
            clampNonneg (ds.getD (16 + fskReadLen ds * 8 + k) 0) +
            clampNonneg (ds.getD (16 + fskReadLen ds * 8 * 2 + k) 0)
          then (1 : Nat) else 0)).getD (i * 8 + j) 0 ≤ 1 := by
      intro j hj
      have hk : i * 8 + j < fskReadLen ds * 8 := by omega
      rw [List.getD_eq_getElem _ _ (by simpa using hk), List.getElem_map, List.getElem_range]
      split <;> omega
    rw [foldl_jsShiftOr_eq_sum _ 8 hbound]
    apply Finset.sum_congr rfl
    intro j hjm
    have hj : j < 8 := Finset.mem_range.mp hjm
    have hk : i * 8 + j < fskReadLen ds * 8 := by omega
    rw [List.getD_eq_getElem _ _ (by simpa using hk), List.getElem_map, List.getElem_range,
      fsk_majority_step _ _ _ (int_getD_vals ds hv _) (int_getD_vals ds hv _)
        (int_getD_vals ds hv _),
      show 16 + (i * 8 + j) = 16 + (8 * i + j) by ring,
      show 16 + fskReadLen ds * 8 + (i * 8 + j) = 16 + 8 * fskReadLen ds + (8 * i + j) by ring,
      show 16 + fskReadLen ds * 8 * 2 + (i * 8 + j) =
        16 + 16 * fskReadLen ds + (8 * i + j) by ring]
  · intro rawData hv h0 h1 h2
    have hns : ¬rawData.length < 16 := by omega
    have hng : ¬(hdReadLen rawData ≤ 0 ∨ 1024 < hdReadLen rawData) := by omega
    have hnt : ¬(rawData.length < 16 + hdReadLen rawData * 8 * 3) := by omega
    have hhd : hdPayload rawData = some ((List.range (hdReadLen rawData)).map (fun i =>
        (List.range 8).foldl (fun b j => jsShiftOr b
          (((List.range (hdReadLen rawData * 8)).map (fun k =>
            if 2 ≤ rawData.getD (16 + k) 0 +
                rawData.getD (16 + hdReadLen rawData * 8 + k) 0 +
                rawData.getD (16 + hdReadLen rawData * 8 * 2 + k) 0
              then (1 : Nat) else 0)).getD (i * 8 + j) 0)) 0)) := by
      unfold hdPayload
      rw [if_neg hns, if_neg hng, if_neg hnt]
    refine ⟨_, hhd, by simp, ?_⟩
    intro i hi
    have hiL : i < ((List.range (hdReadLen rawData)).map (fun i =>
        (List.range 8).foldl (fun b j => jsShiftOr b
          (((List.range (hdReadLen rawData * 8)).map (fun k =>
            if 2 ≤ rawData.getD (16 + k) 0 +
                rawData.getD (16 + hdReadLen rawData * 8 + k) 0 +
                rawData.getD (16 + hdReadLen rawData * 8 * 2 + k) 0
              then (1 : Nat) else 0)).getD (i * 8 + j) 0)) 0)).length := by
      simpa using hi
    rw [List.getD_eq_getElem _ _ hiL, List.getElem_map, List.getElem_range]
    have hbound : ∀ j < 8, ((List.range (hdReadLen rawData * 8)).map (fun k =>
        if 2 ≤ rawData.getD (16 + k) 0 +
            rawData.getD (16 + hdReadLen rawData * 8 + k) 0 +
            rawData.getD (16 + hdReadLen rawData * 8 * 2 + k) 0
          then (1 : Nat) else 0)).getD (i * 8 + j) 0 ≤ 1 := by
      intro j hj
      have hk : i * 8 + j < hdReadLen rawData * 8 := by omega
      rw [List.getD_eq_getElem _ _ (by simpa using hk), List.getElem_map, List.getElem_range]
      split <;> omega
    rw [foldl_jsShiftOr_eq_sum _ 8 hbound]
    apply Finset.sum_congr rfl
    intro j hjm
    have hj : j < 8 := Finset.mem_range.mp hjm
    have hk : i * 8 + j < hdReadLen rawData * 8 := by omega
    rw [List.getD_eq_getElem _ _ (by simpa using hk), List.getElem_map, List.getElem_range,
      hd_majority_step _ _ _ (nat_getD_le_one rawData hv _) (nat_getD_le_one rawData hv _)
        (nat_getD_le_one rawData hv _),
      show 16 + (i * 8 + j) = 16 + (8 * i + j) by ring,
      show 16 + hdReadLen rawData * 8 + (i * 8 + j) =
        16 + 8 * hdReadLen rawData + (8 * i + j) by ring,
      show 16 + hdReadLen rawData * 8 * 2 + (i * 8 + j) =
        16 + 16 * hdReadLen rawData + (8 * i + j) by ring]

theorem basebandOf_negQ (audioData carrier : List ℚ) :
    basebandOf (negQ audioData) carrier = negQ (basebandOf audioData carrier) := by
  unfold basebandOf negQ
  induction audioData generalizing carrier with
  | nil => simp
  | cons a as ih =>
    cases carrier with
    | nil => simp
    | cons c cs => simp [ih, neg_mul]

theorem foldl_add_neg (l : List ℚ) :
    ∀ a : ℚ, (l.map (fun x => -x)).foldl (fun acc x => acc + x) (-a) =
      -(l.foldl (fun acc x => acc + x) a) := by
  induction l with
  | nil => intro a; simp
  | cons x xs ih =>
    intro a
    simp only [List.map_cons, List.foldl_cons]
    rw [show -a + -x = -(a + x) by ring, ih]

theorem foldl_dot_neg (l : List (ℚ × ℚ)) :
    ∀ a : ℚ, (l.map (Prod.map (fun x => -x) id)).foldl (fun acc p => acc + p.1 * p.2) (-a) =
      -(l.foldl (fun acc p => acc + p.1 * p.2) a) := by
  induction l with
  | nil => intro a; simp
  | cons x xs ih =>
    intro a
    simp only [List.map_cons, List.foldl_cons, Prod.map_fst, Prod.map_snd, id]
    rw [show -a + -x.1 * x.2 = -(a + x.1 * x.2) by ring, ih]

theorem burstScore_negQ (baseband : List ℚ) (i : Nat) :
    burstScore (negQ baseband) i = -burstScore baseband i := by
  unfold burstScore negQ
  rw [← List.map_drop, ← List.map_take]
  have := foldl_add_neg ((baseband.drop (i * 8)).take 8) 0
  rw [neg_zero] at this
  rw [this]

theorem covertScore_negQ (baseband : List ℚ) (i : Nat) :
    covertScore (negQ baseband) i = -covertScore baseband i := by
  unfold covertScore negQ
  rw [← List.map_drop, ← List.map_take, List.zip_map_left]
  have := foldl_dot_neg (((baseband.drop (i * samplesPerBitCovert)).take
    samplesPerBitCovert).zip spreadSeqTemplate) 0
  rw [neg_zero] at this
  rw [this]

theorem burstBits_negQ (baseband : List ℚ)
    (h : ∀ i < baseband.length / 8, burstScore baseband i ≠ 0) :
    burstBits (negQ baseband) = (burstBits baseband).map (fun b => 1 - b) := by
  unfold burstBits
  have hlen : (negQ baseband).length = baseband.length := List.length_map _ _
  rw [hlen, List.map_map]
  apply List.map_congr_left
  intro i hi
  have hi' : i < baseband.length / 8 := List.mem_range.mp hi
  have hs := h i hi'
  rw [burstScore_negQ]
  rcases lt_trichotomy (burstScore baseband i) 0 with hlt | heq | hgt
  · simp only [Function.comp]
    rw [if_pos (by linarith), if_neg (by linarith)]
  · exact absurd heq hs
  · simp only [Function.comp]
    rw [if_neg (by linarith), if_pos hgt]

theorem covertBits_negQ (baseband : List ℚ)
    (h : ∀ i < baseband.length / samplesPerBitCovert, covertScore baseband i ≠ 0) :
    covertBits (negQ baseband) = (covertBits baseband).map (fun b => 1 - b) := by
  unfold covertBits
  have hlen : (negQ baseband).length = baseband.length := List.length_map _ _
  rw [hlen, List.map_map]
  apply List.map_congr_left
  intro i hi
  have hi' : i < baseband.length / samplesPerBitCovert := List.mem_range.mp hi
  have hs := h i hi'
  rw [covertScore_negQ]
  rcases lt_trichotomy (covertScore baseband i) 0 with hlt | heq | hgt
  · simp only [Function.comp]
    rw [if_pos (by linarith), if_neg (by linarith)]
  · exact absurd heq hs
  · simp only [Function.comp]
    rw [if_neg (by linarith), if_pos hgt]

theorem all_congr_aux {l : List Nat} {p q : Nat → Bool} (h : ∀ x ∈ l, p x = q x) :
    l.all p = l.all q := by
  induction l with
  | nil => rfl
  | cons a as ih =>
    simp only [List.all_cons, h a (by simp)]
    rw [ih (fun x hx => h x (by simp [hx]))]

theorem syncMatchAt_invMap (bits sw : List Nat) (hb : ∀ b ∈ bits, b ≤ 1)
    (hsw : ∀ s ∈ sw, s ≤ 1) (i : Nat) :
    syncMatchAt (bits.map (fun b => 1 - b)) sw i = syncInvAt bits sw i := by
  unfold syncMatchAt syncInvAt
  apply all_congr_aux
  intro j hj
  have hjl : j < sw.length := List.mem_range.mp hj
  have hs : sw.getD j 2 ≤ 1 := by
    rw [List.getD_eq_getElem _ _ hjl]
    exact hsw _ (List.getElem_mem hjl)
  by_cases hij : i + j < bits.length
  · have hmap : (bits.map (fun b => 1 - b)).getD (i + j) 2 = 1 - bits.getD (i + j) 2 := by
      rw [List.getD_eq_getElem _ _ (by simpa using hij), List.getElem_map,
        List.getD_eq_getElem _ _ hij]
    have hbv : bits.getD (i + j) 2 ≤ 1 := by
      rw [List.getD_eq_getElem _ _ hij]
      exact hb _ (List.getElem_mem hij)
    rw [hmap]
    generalize bits.getD (i + j) 2 = b at hbv
    generalize sw.getD j 2 = s at hs
    interval_cases b <;> interval_cases s <;> decide
  · have h2 : (bits.map (fun b => 1 - b)).getD (i + j) 2 = 2 := by
      rw [List.getD_eq_default _ _ (by simpa using hij)]
    have h2' : bits.getD (i + j) 2 = 2 := by
      rw [List.getD_eq_default _ _ (by omega)]
    rw [h2, h2']
    generalize sw.getD j 2 = s at hs
    interval_cases s <;> decide

theorem syncInvAt_invMap (bits sw : List Nat) (hb : ∀ b ∈ bits, b ≤ 1)
    (hsw : ∀ s ∈ sw, s ≤ 1) (i : Nat) :
    syncInvAt (bits.map (fun b => 1 - b)) sw i = syncMatchAt bits sw i := by
  unfold syncMatchAt syncInvAt
  apply all_congr_aux
  intro j hj
  have hjl : j < sw.length := List.mem_range.mp hj
  have hs : sw.getD j 2 ≤ 1 := by
    rw [List.getD_eq_getElem _ _ hjl]
    exact hsw _ (List.getElem_mem hjl)
  by_cases hij : i + j < bits.length
  · have hmap : (bits.map (fun b => 1 - b)).getD (i + j) 2 = 1 - bits.getD (i + j) 2 := by
      rw [List.getD_eq_getElem _ _ (by simpa using hij), List.getElem_map,
        List.getD_eq_getElem _ _ hij]
    have hbv : bits.getD (i + j) 2 ≤ 1 := by
      rw [List.getD_eq_getElem _ _ hij]
      exact hb _ (List.getElem_mem hij)
    rw [hmap]
    generalize bits.getD (i + j) 2 = b at hbv
    generalize sw.getD j 2 = s at hs
    interval_cases b <;> interval_cases s <;> decide
  · have h2 : (bits.map (fun b => 1 - b)).getD (i + j) 2 = 2 := by
      rw [List.getD_eq_default _ _ (by simpa using hij)]
    have h2' : bits.getD (i + j) 2 = 2 := by
      rw [List.getD_eq_default _ _ (by omega)]
    rw [h2, h2']
    generalize sw.getD j 2 = s at hs
    interval_cases s <;> decide

theorem sync_not_both (bits : List Nat) (i : Nat) :
    ¬(syncMatchAt bits SYNC_WORD i = true ∧ syncInvAt bits SYNC_WORD i = true) := by
  rintro ⟨hm, hv⟩
  unfold syncMatchAt at hm
  unfold syncInvAt at hv
  have h0m := List.all_eq_true.mp hm 0 (by decide)
  have h0v := List.all_eq_true.mp hv 0 (by decide)
  simp only [Nat.add_zero, beq_iff_eq, decide_eq_true_eq] at h0m h0v
  rw [show SYNC_WORD.getD 0 2 = 0 from rfl] at h0m h0v
  omega

theorem sync_word_bits_le_one : ∀ s ∈ SYNC_WORD, s ≤ 1 := by decide

theorem findSyncLoop_invMap (bits : List Nat) (hb : ∀ b ∈ bits, b ≤ 1) :
    ∀ rem i, findSyncLoop (bits.map (fun b => 1 - b)) SYNC_WORD i rem =
      Option.map (fun r : Nat × Bool => (r.1, !r.2)) (findSyncLoop bits SYNC_WORD i rem) := by
  intro rem
  induction rem with
  | zero => intro i; simp [findSyncLoop]
  | succ n ih =>
    intro i
    unfold findSyncLoop
    rw [syncMatchAt_invMap bits SYNC_WORD hb sync_word_bits_le_one i,
      syncInvAt_invMap bits SYNC_WORD hb sync_word_bits_le_one i]
    cases hm : syncMatchAt bits SYNC_WORD i with
    | true =>
      have hv : syncInvAt bits SYNC_WORD i = false := by
        cases hv : syncInvAt bits SYNC_WORD i with
        | false => rfl
        | true => exact absurd ⟨hm, hv⟩ (sync_not_both bits i)
      rw [hv]
      simp
    | false =>
      cases hv : syncInvAt bits SYNC_WORD i with
      | true => simp
      | false =>
        simp only [Bool.false_eq_true, if_false]
        exact ih (i + 1)

theorem findSyncWord_invMap (bits : List Nat) (hb : ∀ b ∈ bits, b ≤ 1) :
    findSyncWord (bits.map (fun b => 1 - b)) SYNC_WORD =
      Option.map (fun r : Nat × Bool => (r.1, !r.2)) (findSyncWord bits SYNC_WORD) := by
  unfold findSyncWord
  rw [List.length_map]
  exact findSyncLoop_invMap bits hb _ 0

theorem double_invert (l : List Nat) (hl : ∀ b ∈ l, b ≤ 1) :
    (l.map (fun b => 1 - b)).map (fun b => 1 - b) = l := by
  rw [List.map_map]
  have h : ∀ x ∈ l, ((fun b => 1 - b) ∘ fun b => 1 - b) x = id x := by
    intro x hx
    have := hl x hx
    simp only [Function.comp, id]
    omega
  rw [List.map_congr_left h, List.map_id]

theorem decodeBitsCovert_invMap (bits : List Nat) (hb : ∀ b ∈ bits, b ≤ 1) :
    decodeBitsCovert (bits.map (fun b => 1 - b)) = decodeBitsCovert bits := by
  unfold decodeBitsCovert
  rw [findSyncWord_invMap bits hb]
  cases hfs : findSyncWord bits SYNC_WORD with
  | none => rfl
  | some r =>
    obtain ⟨i, inv⟩ := r
    have hdrop : (bits.map (fun b => 1 - b)).drop (i + SYNC_WORD.length) =
        (bits.drop (i + SYNC_WORD.length)).map (fun b => 1 - b) := by
      rw [List.map_drop]
    cases inv with
    | false =>
      simp only [Option.map_some', Bool.not_false, if_true]
      rw [hdrop, double_invert _ (fun b hbm => hb b (List.drop_subset _ _ hbm))]
      simp
    | true =>
      simp only [Option.map_some', Bool.not_true, Bool.false_eq_true, if_false, if_true]
      rw [hdrop]

theorem burstBits_le_one (baseband : List ℚ) : ∀ b ∈ burstBits baseband, b ≤ 1 := by
  intro b hb
  unfold burstBits at hb
  obtain ⟨i, _, hi⟩ := List.mem_map.mp hb
  rw [← hi]
  split <;> omega

theorem covertBits_le_one (baseband : List ℚ) : ∀ b ∈ covertBits baseband, b ≤ 1 := by
  intro b hb
  unfold covertBits at hb
  obtain ⟨i, _, hi⟩ := List.mem_map.mp hb
  rw [← hi]
  split <;> omega

/-- C4 (amended): decoding an audio window and decoding the sample-wise
negated window yield identical results, provided every symbol decision
statistic (the despreading correlation in COVERT mode, the integrated
sum in BURST mode) is nonzero on every scanned carrier; the inverted
sync path is then taken and subsequent bits are bitwise negated,
restoring the same payload bytes.  (A window with an exactly-zero
statistic yields bit 0 on both polarities and can decode differently —
see the counterexample.) -/
theorem claim_C4_carrier_inversion :
    ∀ (audioData : List ℚ) (mode : String) (carriers : List (List ℚ)),
      (∀ carrier ∈ carriers,
        (mode = "BURST" → ∀ i < (basebandOf audioData carrier).length / 8,
          burstScore (basebandOf audioData carrier) i ≠ 0) ∧
        (mode ≠ "BURST" → ∀ i < (basebandOf audioData carrier).length / samplesPerBitCovert,
          covertScore (basebandOf audioData carrier) i ≠ 0)) →
      extractFromAudio audioData mode carriers =
        extractFromAudio (negQ audioData) mode carriers := by
  intro audioData mode carriers
  induction carriers with
  | nil => intro h; rfl
  | cons c rest ih =>
    intro h
    have hc := h c (by simp)
    have hbase := basebandOf_negQ audioData c
    have hscr : decodeBitsCovert (if mode = "BURST"
          then burstBits (basebandOf (negQ audioData) c)
          else covertBits (basebandOf (negQ audioData) c)) =
        decodeBitsCovert (if mode = "BURST"
          then burstBits (basebandOf audioData c)
          else covertBits (basebandOf audioData c)) := by
      by_cases hm : mode = "BURST"
      · rw [if_pos hm, if_pos hm, hbase, burstBits_negQ _ (hc.1 hm),
          decodeBitsCovert_invMap _ (burstBits_le_one _)]
      · rw [if_neg hm, if_neg hm, hbase, covertBits_negQ _ (hc.2 hm),
          decodeBitsCovert_invMap _ (covertBits_le_one _)]
    have hstep : ∀ (a : List ℚ), extractFromAudio a mode (c :: rest) =
        match decodeBitsCovert (if mode = "BURST"
            then burstBits (basebandOf a c)
            else covertBits (basebandOf a c)) with
        | some bytes => some bytes
        | none => extractFromAudio a mode rest := fun a => rfl
    rw [hstep audioData, hstep (negQ audioData), hscr]
    cases hd : decodeBitsCovert (if mode = "BURST"
        then burstBits (basebandOf audioData c)
        else covertBits (basebandOf audioData c)) with
    | some bytes => rfl
    | none => exact ih (fun c2 hc2 => h c2 (by simp [hc2]))

set_option maxHeartbeats 2000000 in
/-- Witness for C4 (amended): a one-symbol all-ones BURST window has a
nonzero integrated sum, and decoding it and its negation agree. -/
theorem claim_C4_carrier_inversion_witness :
    extractFromAudio (List.replicate 8 (1 : ℚ)) "BURST" [List.replicate 8 (1 : ℚ)] =
      extractFromAudio (negQ (List.replicate 8 (1 : ℚ))) "BURST" [List.replicate 8 (1 : ℚ)] :=
  claim_C4_carrier_inversion _ _ _ (by with_unfolding_all decide)

set_option maxRecDepth 40000 in
set_option maxHeartbeats 2000000 in
/-- Counterexample to C4 as stated: on `audioCE` the decoder locks on the
sync word (the silent first slot demodulates to bit 0 = SYNC_WORD[0]) and
returns an empty payload, but on the negated window the first slot still
demodulates to 0 instead of 1, the inverted sync no longer matches, and
the decode yields nothing. -/
theorem claim_C4_carrier_inversion_counterexample :
    extractFromAudio audioCE "BURST" [carrierCE] = some [] ∧
    extractFromAudio (negQ audioCE) "BURST" [carrierCE] = none ∧
    extractFromAudio audioCE "BURST" [carrierCE] ≠
      extractFromAudio (negQ audioCE) "BURST" [carrierCE] := by
  refine ⟨?_, ?_, ?_⟩ <;> with_unfolding_all decide

/-- Counterexample to C1 as stated: on a 28-byte blob whose secretbox
open succeeds, `decrypt`'s attempt trace is `[secretbox]` — ChaCha20 is
never attempted at all — and on secretbox failure the trace is
`[secretbox, chacha]`: secretbox is tried first, ChaCha20 only as the
fallback. -/
theorem claim_C1_cipher_order_counterexample :
    (decryptT sbFixed parseFail DEFAULT_KEY (List.replicate 28 0) none).2 =
      [Cipher.secretbox] ∧
    Cipher.chacha ∉ (decryptT sbFixed parseFail DEFAULT_KEY (List.replicate 28 0) none).2 ∧
    (decryptT sbFail parseFail DEFAULT_KEY (List.replicate 28 0) none).2 =
      [Cipher.secretbox, Cipher.chacha] := by
  refine ⟨?_, ?_, ?_⟩ <;> decide

/-- C1 (amended): for every sealed blob of length ≥ 28, `decrypt`
attempts XSalsa20-Poly1305 secretbox FIRST, on the 12 consumed nonce
bytes padded with trailing zeros to 24, and only on its failure falls
back to the ChaCha20-Poly1305 WebCrypto path (which in this runtime
reports the cipher unsupported). -/
theorem claim_C1_cipher_order (sb : SecretboxOpen) (parse : JsonParse)
    (key blob : List Nat) (vk : Option String) (h28 : 28 ≤ blob.length) :
    (decryptT sb parse key blob vk).2.head? = some Cipher.secretbox ∧
    (∀ pt, sb ((decodedBlobOf blob).drop 12) (pad24 ((decodedBlobOf blob).take 12)) key =
        some pt →
      decryptT sb parse key blob vk = (unpackPacket parse pt vk, [Cipher.secretbox])) ∧
    (sb ((decodedBlobOf blob).drop 12) (pad24 ((decodedBlobOf blob).take 12)) key = none →
      decryptT sb parse key blob vk =
        (decryptWithWebCrypto, [Cipher.secretbox, Cipher.chacha])) ∧
    (12 ≤ (decodedBlobOf blob).length →
      pad24 ((decodedBlobOf blob).take 12) =
        (decodedBlobOf blob).take 12 ++ List.replicate 12 0) := by
  have hng : ¬blob.length < 28 := by omega
  refine ⟨?_, ?_, ?_, ?_⟩
  · unfold decryptT
    rw [if_neg hng]
    cases hsb : sb ((decodedBlobOf blob).drop 12) (pad24 ((decodedBlobOf blob).take 12)) key
      with
    | none => rfl
    | some pt => rfl
  · intro pt hsb
    unfold decryptT
    rw [if_neg hng, hsb]
  · intro hsb
    unfold decryptT
    rw [if_neg hng, hsb]
  · intro h12
    unfold pad24
    rw [List.length_take, min_eq_left h12]

/-- Witness for C1 (amended): the concrete 28-byte blob with the
always-failing oracle produces the trace `[secretbox, chacha]`. -/
theorem claim_C1_cipher_order_witness :
    (decryptT sbFail parseFail DEFAULT_KEY (List.replicate 28 0) none).2.head? =
      some Cipher.secretbox :=
  (claim_C1_cipher_order sbFail parseFail DEFAULT_KEY (List.replicate 28 0) none
    (by decide)).1

/-- C6 (amended): `decrypt` validates the 28-byte minimum on the blob as
received, BEFORE the FEC strip: every blob shorter than 28 bytes yields
`ERROR/"Corrupt Data"` with no cipher attempted.  The post-strip length
is not re-checked (see the counterexample). -/
theorem claim_C6_corrupt_data (sb : SecretboxOpen) (parse : JsonParse)
    (key blob : List Nat) (vk : Option String) (h : blob.length < 28) :
    decryptT sb parse key blob vk = (errorResult "Corrupt Data", []) := by
  unfold decryptT
  rw [if_pos h]

/-- Witness for C6 (amended): a 27-byte blob is rejected as Corrupt Data. -/
theorem claim_C6_corrupt_data_witness :
    decryptT sbFail parseFail DEFAULT_KEY (List.replicate 27 0) none =
      (errorResult "Corrupt Data", []) :=
  claim_C6_corrupt_data sbFail parseFail DEFAULT_KEY (List.replicate 27 0) none (by decide)

/-- Counterexample to C6 as stated: a 33-byte blob strips to 1 byte
(< 28 = nonce + tag) after the FEC strip, yet `decrypt` does not return
Corrupt Data — it attempts decryption (trace nonempty) and falls through
to the WebCrypto error. -/
theorem claim_C6_corrupt_data_counterexample :
    (decodedBlobOf (List.replicate 33 0)).length < 28 ∧
    decrypt sbFail parseFail DEFAULT_KEY (List.replicate 33 0) none ≠
      errorResult "Corrupt Data" ∧
    (decryptT sbFail parseFail DEFAULT_KEY (List.replicate 33 0) none).2 ≠ [] := by
  refine ⟨?_, ?_, ?_⟩ <;> decide

/-- Counterexample to C5 as stated: on a 28-byte blob whose tag
verification fails, the WebCrypto variant's `decrypt` returns
`ERROR/"ChaCha20 not supported in this browser"`, not
`ERROR/"Decryption failed"`. -/
theorem claim_C5_auth_failure_counterexample :
    (decrypt sbFail parseFail DEFAULT_KEY (List.replicate 28 0) none).status = "ERROR" ∧
    (decrypt sbFail parseFail DEFAULT_KEY (List.replicate 28 0) none).content ≠
      "Decryption failed" ∧
    (decrypt sbFail parseFail DEFAULT_KEY (List.replicate 28 0) none).content =
      "ChaCha20 not supported in this browser" := by
  refine ⟨?_, ?_, ?_⟩ <;> decide

/-- C5 (amended): on tag-verification failure the NaCl variant's
`decrypt` returns the constant `ERROR/"Decryption failed"` record, while
the WebCrypto variant's `decrypt` returns the constant
`ERROR/"ChaCha20 not supported in this browser"` record; both are fixed
error records carrying no decrypted bytes in any field. -/
theorem claim_C5_auth_failure (sb : SecretboxOpen) (parse : JsonParse)
    (key blob : List Nat) (vk : Option String) :
    (40 ≤ blob.length →
      sb (blob.drop 24) (blob.take 24) key = none →
      decryptB sb parse key blob =
        { content := "Decryption failed", status := "ERROR", priority := "ROUTINE"
          msgType := none, verified := none }) ∧
    (28 ≤ blob.length →
      sb ((decodedBlobOf blob).drop 12) (pad24 ((decodedBlobOf blob).take 12)) key = none →
      decrypt sb parse key blob vk = errorResult "ChaCha20 not supported in this browser") := by
  constructor
  · intro h40 hsb
    unfold decryptB
    rw [if_neg (by omega), hsb]
  · intro h28 hsb
    unfold decrypt decryptT
    rw [if_neg (by omega), hsb]
    rfl

/-- Witness for C5 (amended): concrete 40-byte and 28-byte blobs with
the failing oracle indeed give the two constant error records. -/
theorem claim_C5_auth_failure_witness :
    decryptB sbFail parseFail DEFAULT_KEY (List.replicate 40 0) =
      { content := "Decryption failed", status := "ERROR", priority := "ROUTINE"
        msgType := none, verified := none } :=
  (claim_C5_auth_failure sbFail parseFail DEFAULT_KEY (List.replicate 40 0) none).1
    (by decide) rfl

/-- C7: the FEC strip drops the trailing 32 bytes exactly when the blob
exceeds 32 bytes and passes the blob through unchanged otherwise; in
particular, appending 32 trailing parity bytes to a (≥ 28-byte) envelope
makes `decrypt` operate on the envelope itself, so a valid envelope
still decrypts successfully. -/
theorem claim_C7_fec_strip (blob : List Nat) :
    (32 < blob.length → decodedBlobOf blob = blob.take (blob.length - 32)) ∧
    (blob.length ≤ 32 → decodedBlobOf blob = blob) ∧
    (∀ (sb : SecretboxOpen) (parse : JsonParse) (key : List Nat) (vk : Option String)
        (pt : List Nat),
      28 ≤ blob.length →
      sb (blob.drop 12) (pad24 (blob.take 12)) key = some pt →
      decrypt sb parse key (blob ++ List.replicate 32 0) vk = unpackPacket parse pt vk) := by
  refine ⟨?_, ?_, ?_⟩
  · intro h
    unfold decodedBlobOf fecDecode
    rw [if_neg (by omega)]
  · intro h
    unfold decodedBlobOf fecDecode
    rw [if_pos h]
  · intro sb parse key vk pt h28 hsb
    have hlen : (blob ++ List.replicate 32 0).length = blob.length + 32 := by simp
    have hstrip : decodedBlobOf (blob ++ List.replicate 32 0) = blob := by
      unfold decodedBlobOf fecDecode
      rw [if_neg (by omega), hlen]
      simp
    unfold decrypt decryptT
    rw [if_neg (by omega), hstrip, hsb]

/-- Witness for C7: a concrete 28-byte envelope that opens under the
fixed oracle still decrypts after 32 zero parity bytes are appended. -/
theorem claim_C7_fec_strip_witness :
    decrypt sbFixed parseHello DEFAULT_KEY
        (List.replicate 28 0 ++ List.replicate 32 0) none =
      unpackPacket parseHello (List.replicate 65 0) none :=
  (claim_C7_fec_strip (List.replicate 28 0)).2.2 sbFixed parseHello DEFAULT_KEY none
    (List.replicate 65 0) (by decide) rfl

/-- C9: the type byte is mapped per
`{0x01:TEXT, 0x02:LOCATION, 0x03:FILE, 0x04:IMAGE, 0x05:ACK}` with every
unknown byte mapping to TEXT, and for every plaintext of length ≥ 65
whose JSON body parses, a TEXT / LOCATION / ACK record's content equals
the JSON field `m`, or the empty string when `m` is absent. -/
theorem claim_C9_unpack_packet :
    (msgTypeOf 0x01 = "TEXT" ∧ msgTypeOf 0x02 = "LOCATION" ∧ msgTypeOf 0x03 = "FILE" ∧
      msgTypeOf 0x04 = "IMAGE" ∧ msgTypeOf 0x05 = "ACK" ∧
      ∀ b, b ∉ [1, 2, 3, 4, 5] → msgTypeOf b = "TEXT") ∧
    ∀ (parse : JsonParse) (packet : List Nat) (vk : Option String) (j : PacketJson),
      65 ≤ packet.length → parse (packet.drop 65) = some j →
      (unpackPacket parse packet vk).msgType = msgTypeOf (packet.getD 0 0) ∧
      ((msgTypeOf (packet.getD 0 0) = "TEXT" ∨ msgTypeOf (packet.getD 0 0) = "LOCATION" ∨
          msgTypeOf (packet.getD 0 0) = "ACK") →
        (unpackPacket parse packet vk).content = j.m.getD "") := by
  constructor
  · refine ⟨rfl, rfl, rfl, rfl, rfl, ?_⟩
    intro b hb
    unfold msgTypeOf
    simp only [List.mem_cons, List.not_mem_nil, or_false] at hb
    push_neg at hb
    obtain ⟨h1, h2, h3, h4, h5⟩ := hb
    rw [if_neg h1, if_neg h2, if_neg h3, if_neg h4, if_neg h5]
  · intro parse packet vk j h65 hj
    have hu : unpackPacket parse packet vk =
        if msgTypeOf (packet.getD 0 0) = "FILE" ∨ msgTypeOf (packet.getD 0 0) = "IMAGE" then
          { content := "File: " ++ strOr j.f "unknown"
            priority := strOr j.p "ROUTINE"
            status := "OK"
            msgType := msgTypeOf (packet.getD 0 0)
            filename := some (strOr j.f "unknown")
            verified := false }
        else
          { content := strOr j.m ""
            priority := strOr j.p "ROUTINE"
            status := "OK"
            msgType := msgTypeOf (packet.getD 0 0)
            filename := none
            verified := false } := by
      unfold unpackPacket
      rw [if_neg (by omega), hj]
    rw [hu]
    constructor
    · split <;> rfl
    · intro hmt
      have hne : ¬(msgTypeOf (packet.getD 0 0) = "FILE" ∨
          msgTypeOf (packet.getD 0 0) = "IMAGE") := by
        rcases hmt with h | h | h <;> rw [h] <;> decide
      rw [if_neg hne]
      show strOr j.m "" = j.m.getD ""
      cases j.m with
      | none => rfl
      | some v =>
        show (if v = "" then "" else v) = v
        by_cases hv : v = ""
        · rw [if_pos hv, hv]
        · rw [if_neg hv]

/-- Witness for C9: a concrete 65-byte packet with type byte 1 and body
`{"m":"HELLO"}` unpacks to a TEXT record whose content is HELLO. -/
theorem claim_C9_unpack_packet_witness :
    (unpackPacket parseHello (1 :: List.replicate 64 0) none).msgType = msgTypeOf 1 ∧
    (unpackPacket parseHello (1 :: List.replicate 64 0) none).content =
      (some "HELLO").getD "" := by
  have h := claim_C9_unpack_packet.2 parseHello (1 :: List.replicate 64 0) none
    ⟨none, some "HELLO", none, none⟩ (by decide) rfl
  exact ⟨h.1, h.2 (Or.inl rfl)⟩

/-- C10: signature verification is never performed: every record the
WebCrypto variant returns (from `decrypt` or `unpackPacket`) has
`verified = false`, and the NaCl variant's records never carry
`verified = true` (on success the field is `false`, on error it is
absent) — regardless of the blob, the key, the signature bytes and any
supplied verification key. -/
theorem ite_verified_false {c : Prop} [Decidable c] {r1 r2 : MsgRecord}
    (h1 : r1.verified = false) (h2 : r2.verified = false) :
    (if c then r1 else r2).verified = false := by
  split <;> assumption

theorem claim_C10_never_verified (sb : SecretboxOpen) (parse : JsonParse)
    (key blob : List Nat) (vk : Option String) :
    (decrypt sb parse key blob vk).verified = false ∧
    (∀ packet, (unpackPacket parse packet vk).verified = false) ∧
    (decryptB sb parse key blob).verified ≠ some true ∧
    ((decryptB sb parse key blob).status = "OK" →
      (decryptB sb parse key blob).verified = some false) := by
  have hunp : ∀ packet, (unpackPacket parse packet vk).verified = false := by
    intro packet
    unfold unpackPacket
    by_cases h : packet.length < 65
    · rw [if_pos h]
      rfl
    · rw [if_neg h]
      cases parse (packet.drop 65) with
      | none => rfl
      | some d => exact ite_verified_false rfl rfl
  have hB : (decryptB sb parse key blob).verified ≠ some true ∧
      ((decryptB sb parse key blob).status = "OK" →
        (decryptB sb parse key blob).verified = some false) := by
    unfold decryptB
    split
    · refine ⟨by simp, fun hok => ?_⟩
      have hok2 : ("ERROR" : String) = "OK" := hok
      exact absurd hok2 (by decide)
    · split
      · refine ⟨by simp, fun hok => ?_⟩
        have hok2 : ("ERROR" : String) = "OK" := hok
        exact absurd hok2 (by decide)
      · split
        · refine ⟨by simp, fun hok => ?_⟩
          have hok2 : ("ERROR" : String) = "OK" := hok
          exact absurd hok2 (by decide)
        · exact ⟨by simp, fun _ => rfl⟩
  refine ⟨?_, hunp, hB.1, hB.2⟩
  unfold decrypt decryptT
  by_cases h : blob.length < 28
  · rw [if_pos h]
    rfl
  · rw [if_neg h]
    cases sb ((decodedBlobOf blob).drop 12) (pad24 ((decodedBlobOf blob).take 12)) key with
    | none => rfl
    | some pt => exact hunp pt

/-- Witness for C10: with a nonzero 64-byte signature slot and a supplied
verification key, the returned record still has `verified = false`. -/
theorem claim_C10_never_verified_witness :
    (unpackPacket parseHello (1 :: List.replicate 64 1) (some "aa")).verified = false :=
  (claim_C10_never_verified sbFixed parseHello DEFAULT_KEY [] (some "aa")).2.1
    (1 :: List.replicate 64 1)

/-- Witness for C3: a concrete 40-bit synchronized stream declaring
`L = 1`, with three 8-bit payload copies (one indeterminate marker
included), extracts one majority-voted byte. -/
theorem claim_C3_majority_vote_witness :
    ∃ bytes, fskExtract ([0, 0, 0, 0, 0, 0, 0, 0, 0, 0, 0, 0, 0, 0, 0, 1,
        1, -1, 1, 0, 0, 0, 0, 0,
        1, 0, 1, 0, 0, 0, 0, 0,
        0, 0, 1, 0, 0, 0, 0, 0] : List Int) = some bytes ∧
      bytes.length = fskReadLen ([0, 0, 0, 0, 0, 0, 0, 0, 0, 0, 0, 0, 0, 0, 0, 1,
        1, -1, 1, 0, 0, 0, 0, 0,
        1, 0, 1, 0, 0, 0, 0, 0,
        0, 0, 1, 0, 0, 0, 0, 0] : List Int) := by
  obtain ⟨bytes, h1, h2, h3⟩ := claim_C3_majority_vote.1
    ([0, 0, 0, 0, 0, 0, 0, 0, 0, 0, 0, 0, 0, 0, 0, 1,
      1, -1, 1, 0, 0, 0, 0, 0,
      1, 0, 1, 0, 0, 0, 0, 0,
      0, 0, 1, 0, 0, 0, 0, 0] : List Int)
    (by decide) (by decide) (by decide) (by decide)
  exact ⟨bytes, h1, h2⟩
